import Mathlib

/-!
Verification of the streaming subtitle pipeline of the
sherpa-onnx Node.js subtitle generator / translator.

Times and audio samples are embedded as exact rationals (`ℚ`); JavaScript
number operations used by the code (`Math.floor`, the `%` remainder,
`padStart`, integer division) are modelled explicitly.  File-system writes
are summarised by the content written (`Option String`, `none` = no file
written).  The sources embedded here are `gensrt.js`, the `transcriber.js`
variant, and the job-supervision loops of `server.js`.
-/

/-- JavaScript truncation toward zero, as used by the `%` operator on a
positive modulus: `Math.trunc t`. -/
def jsTrunc (t : ℚ) : ℤ := if 0 ≤ t then ⌊t⌋ else ⌈t⌉

/-- JavaScript `t % 1`: the remainder carries the sign of the dividend,
so it equals `t - Math.trunc t`. -/
def jsMod1 (t : ℚ) : ℚ := t - jsTrunc t

/-- JavaScript `String.prototype.padStart(len, c)`. -/
def padStart (s : String) (len : ℕ) (c : Char) : String :=
  if len ≤ s.length then s else String.mk (List.replicate (len - s.length) c) ++ s

/-- `formatTime` from `gensrt.js` (lines 92-103; the `transcriber.js` variant
at `logger.js` part lines 241-248 is the same computation):
`intPart = Math.floor(t)`, `ms = Math.floor((t % 1) * 1000)`,
`h = Math.floor(intPart / 3600)`, `m = Math.floor((intPart % 3600) / 60)`,
`s = intPart % 60`, each rendered zero-padded as `HH:MM:SS,mmm`.
JavaScript `%` on integers is truncated remainder (`Int.tmod`). -/
def formatTime (t : ℚ) : String :=
  let intPart : ℤ := ⌊t⌋
  let ms : ℤ := ⌊jsMod1 t * 1000⌋
  let h : ℤ := ⌊(intPart : ℚ) / 3600⌋
  let m : ℤ := ⌊((Int.tmod intPart 3600 : ℤ) : ℚ) / 60⌋
  let s : ℤ := Int.tmod intPart 60
  padStart (toString h) 2 '0' ++ ":" ++ padStart (toString m) 2 '0' ++ ":" ++
    padStart (toString s) 2 '0' ++ "," ++ padStart (toString ms) 3 '0'

/-- A subtitle cue: `class Segment` of `gensrt.js` (lines 105-118). -/
structure Segment where
  start : ℚ
  duration : ℚ
  text : String
deriving DecidableEq, Repr

/-- The derived getter `get end()` of `class Segment`. -/
def Segment.endTime (s : Segment) : ℚ := s.start + s.duration

/-- `Segment.prototype.toString`: `"${formatTime(start)} --> ${formatTime(end)}\n${text}"`. -/
def Segment.render (s : Segment) : String :=
  formatTime s.start ++ " --> " ++ formatTime s.endTime ++ "\n" ++ s.text

/-- The default `maxDuration` parameter of `mergeSegments` (15 seconds). -/
def MAX_DURATION : ℚ := 15

/-- The default `maxPause` parameter of `mergeSegments` (0.5 seconds). -/
def MAX_PAUSE : ℚ := 1/2

/-- The merge test of `mergeSegments` (`gensrt.js` lines 130-135), in
source order with `pause = next.start - current.end`:
`pause >= 0 && current.duration + next.duration <= maxDuration && pause < maxPause`. -/
def mergeCond (current next : Segment) : Prop :=
  0 ≤ next.start - current.endTime ∧
    current.duration + next.duration ≤ MAX_DURATION ∧
    next.start - current.endTime < MAX_PAUSE

instance (a b : Segment) : Decidable (mergeCond a b) := by
  unfold mergeCond; infer_instance

/-- The body of the `for` loop of `mergeSegments` (`gensrt.js` lines 128-142),
with the mutable `current` threaded explicitly and flushed cues emitted in
order.  On a merge `current.duration = next.end - current.start` and
`current.text += " " + next.text`. -/
def mergeLoop (current : Segment) : List Segment → List Segment
  | [] => [current]
  | next :: rest =>
    if mergeCond current next then
      mergeLoop ⟨current.start, next.endTime - current.start,
        current.text ++ " " ++ next.text⟩ rest
    else
      current :: mergeLoop next rest

/-- `mergeSegments` from `gensrt.js` (lines 120-145) at its default
parameters `maxDuration = 15`, `maxPause = 0.5` (every call site in the
repository uses the defaults). -/
def mergeSegments (segments : List Segment) : List Segment :=
  match segments with
  | [] => []
  | first :: rest => mergeLoop ⟨first.start, first.duration, first.text⟩ rest

/-- Stable sort by `start`: JavaScript `segments.sort((a, b) => a.start - b.start)`
(V8's `Array.prototype.sort` is stable). -/
def sortByStart (l : List Segment) : List Segment :=
  l.mergeSort (fun a b => decide (a.start ≤ b.start))

/-- The SRT serialisation of `saveSrt` (`gensrt.js` lines 152-155): numbered
blocks joined by blank lines, or the empty string when there are no merged
cues. -/
def srtContent (merged : List Segment) : String :=
  if 0 < merged.length then
    String.intercalate "\n\n"
      (merged.enum.map (fun p => toString (p.1 + 1) ++ "\n" ++ p.2.render))
  else ""

namespace Gensrt

/-- `saveSrt` of `gensrt.js` (lines 147-165): sorts, merges, and always
writes the serialised content — the empty string when there are no
segments.  The summary value is the content written to the output file. -/
def saveSrt (segments : List Segment) : Option String :=
  some (srtContent (mergeSegments (sortByStart segments)))

end Gensrt

namespace Transcriber

/-- `saveSrt` of the `transcriber.js` variant (`logger.js` part, lines
291-299): `if (!segments || !segments.length) return;` — for zero segments
it returns without writing any file; otherwise it sorts, merges and writes. -/
def saveSrt (segments : List Segment) : Option String :=
  if segments.length = 0 then none
  else some (srtContent (mergeSegments (sortByStart segments)))

end Transcriber

/-- Claim-side rendering of `formatTime` written from the spec's words:
"milliseconds computed as `round((seconds - floor(seconds)) * 1000)`"
(`round` is JavaScript `Math.round`, half-up, which agrees with Mathlib's
`round` on rationals); whole seconds by flooring, `HH` unbounded. -/
def formatTimeRoundSpec (t : ℚ) : String :=
  let whole : ℤ := ⌊t⌋
  let ms : ℤ := round ((t - whole) * 1000)
  let h : ℤ := whole / 3600
  let m : ℤ := whole % 3600 / 60
  let s : ℤ := whole % 60
  padStart (toString h) 2 '0' ++ ":" ++ padStart (toString m) 2 '0' ++ ":" ++
    padStart (toString s) 2 '0' ++ "," ++ padStart (toString ms) 3 '0'

/-- The amended rendering: as `formatTimeRoundSpec` but with the
milliseconds computed by flooring — `floor((seconds - floor(seconds)) * 1000)`
— which is what the code's `Math.floor((t % 1) * 1000)` does on
non-negative input. -/
def formatTimeFloorSpec (t : ℚ) : String :=
  let whole : ℤ := ⌊t⌋
  let ms : ℤ := ⌊(t - whole) * 1000⌋
  let h : ℤ := whole / 3600
  let m : ℤ := whole % 3600 / 60
  let s : ℤ := whole % 60
  padStart (toString h) 2 '0' ++ ":" ++ padStart (toString m) 2 '0' ++ ":" ++
    padStart (toString s) 2 '0' ++ "," ++ padStart (toString ms) 3 '0'

/-!
Per-job pipeline outcome (`gensrt.js` `processFile`, lines 251-476, and the
per-file recovery loop of `main`, lines 494-500).  The interaction with the
external ffmpeg decode process is abstracted into the observable outcome of
one job's run: the spawn may fail, or the process closes with an exit code;
on a clean exit the finalize path (VAD flush, recognition of each region)
either succeeds with a list of recognised segments or throws.
-/

/-- Observable outcome of the external decode process plus finalize phase
for one job. -/
inductive FfmpegOutcome where
  /-- `spawn` threw, or the `error` event fired: the process never ran. -/
  | spawnFail : FfmpegOutcome
  /-- The process closed with exit `code`; if `code = 0` the finalize path
  runs, recognising `segments` (`recogOk = false` models a recognition
  error thrown mid-finalize, before `saveSrt` is reached). -/
  | run (code : ℤ) (segments : List Segment) (recogOk : Bool) : FfmpegOutcome

/-- Result of one transcription job: the subtitle content written (`none`
when no file was written) and whether the job's promise resolved (`true`)
or rejected (`false`). -/
structure JobResult where
  wrote : Option String
  resolved : Bool
deriving DecidableEq, Repr

/-- `processFile` of `gensrt.js`: on spawn failure reject without writing;
on close with `code ≠ 0` reject without writing (lines 390-400); on a clean
close run finalize and `saveSrt` (lines 402-447), rejecting without a write
if recognition throws first. -/
def processFile : FfmpegOutcome → JobResult
  | .spawnFail => ⟨none, false⟩
  | .run code segments recogOk =>
    if code ≠ 0 then ⟨none, false⟩
    else if recogOk then ⟨Gensrt.saveSrt segments, true⟩
    else ⟨none, false⟩

/-- The per-file loop of `main` (`gensrt.js` lines 494-500): each file is
processed inside `try { await processFile(file) } catch { ... }`, so an
error aborts only that file and the loop continues with the next. -/
def mainLoop : List FfmpegOutcome → List JobResult
  | [] => []
  | o :: rest => processFile o :: mainLoop rest

/-!
Job supervision (`server.js`).  Job statuses are the literal strings used
by the code: `'pending' | 'processing' | 'completed' | 'error'`
(`server.js` line 410).
-/

/-- One entry of `transcriptionState.filesList`. -/
structure JobEntry where
  name : String
  status : String
deriving DecidableEq, Repr

/-- The cancel-all branch of the `/api/start` loop (`server.js` lines
557-567): every file still `'pending'` is set to `'error'`. -/
def markPendingError (l : List JobEntry) : List JobEntry :=
  l.map (fun f => if f.status = "pending" then { f with status := "error" } else f)

/-- Replace the status of the entry at position `i` (the loop walks the
files in order and looks its entry up by name via `findIndex`; with
distinct filenames that lookup is exactly the positional update modelled
here). -/
def updStatus : List JobEntry → ℕ → String → List JobEntry
  | [], _, _ => []
  | f :: rest, 0, st => { f with status := st } :: rest
  | f :: rest, i + 1, st => f :: updStatus rest i st

/-- The sequential transcription loop of `POST /api/start` (`server.js`
lines 555-749), as the list of successive `filesList` states it produces.
`i` is the index of the next file, `rem` the number of files left.
At each iteration the loop first checks `cancelAllTranscription`
(`cancelAt i`); if set it marks all pending files `'error'` and breaks.
Otherwise it marks file `i` `'processing'`, spawns the transcriber and
awaits its `close`: exit code `0` (`exitOk i = true`) gives `'completed'`,
anything else (including a kill signal) gives `'error'`. -/
def startLoopAux (exitOk cancelAt : ℕ → Bool) : ℕ → ℕ → List JobEntry → List (List JobEntry)
  | _, 0, st => [st]
  | i, rem + 1, st =>
    if cancelAt i then
      [st, markPendingError st]
    else
      let st1 := updStatus st i "processing"
      let st2 := updStatus st1 i (if exitOk i then "completed" else "error")
      st :: st1 :: startLoopAux exitOk cancelAt (i + 1) rem st2

/-- The full trace of `filesList` states of one `/api/start` request over
`names`, starting from every file `'pending'` (`server.js` line 547). -/
def startLoopTrace (exitOk cancelAt : ℕ → Bool) (names : List String) : List (List JobEntry) :=
  startLoopAux exitOk cancelAt 0 names.length (names.map (fun n => ⟨n, "pending"⟩))

/-- Number of jobs currently `'processing'` in a `filesList`. -/
def countProcessing (l : List JobEntry) : ℕ :=
  (l.filter (fun f => f.status = "processing")).length

/-- The POSIX kill plan of `tryKillProcessTree` (`server.js` lines
467-493): `SIGTERM` to the process group, escalating to `SIGKILL` after a
2000 ms grace period. -/
structure KillPlan where
  firstSignal : String
  escalateSignal : String
  graceMs : ℕ
deriving DecidableEq, Repr

/-- The concrete plan implemented by `tryKillProcessTree`. -/
def tryKillProcessTreePlan : KillPlan := ⟨"SIGTERM", "SIGKILL", 2000⟩

/-!
The upload endpoint (`server.js` `POST /api/upload`, lines 51-232) starts a
transcription for each uploaded file immediately (a `setTimeout` callback
spawns the transcriber and marks the entry `'processing'`), tracking the
spawned processes in the `activeTranscriptionProcesses` map "to support
multiple processes".  Its observable effect on `transcriptionState` is
modelled as events.
-/

/-- Events of the upload endpoint acting on `transcriptionState.filesList`:
`upload` pushes a pending entry (line 66); `begin` is the deferred callback
marking it processing and spawning (lines 76-101); `closeEv` is the
transcriber's `close` handler (lines 182-208). -/
inductive UploadEvent where
  | upload (name : String) : UploadEvent
  | begin (name : String) : UploadEvent
  | closeEv (name : String) (exitOk : Bool) : UploadEvent
deriving DecidableEq, Repr

/-- Set the status of the first entry with the given name
(`findIndex(x => x.name === filename)` followed by the status write). -/
def setByName : List JobEntry → String → String → List JobEntry
  | [], _, _ => []
  | f :: rest, n, st =>
    if f.name = n then { f with status := st } :: rest
    else f :: setByName rest n st

/-- One upload-endpoint event applied to the files list. -/
def uploadStep (l : List JobEntry) : UploadEvent → List JobEntry
  | .upload n => l ++ [⟨n, "pending"⟩]
  | .begin n => setByName l n "processing"
  | .closeEv n ok => setByName l n (if ok then "completed" else "error")

/-- A sequence of upload-endpoint events from the empty files list. -/
def runUploadEvents (events : List UploadEvent) : List JobEntry :=
  events.foldl uploadStep []

/-!
Circular sample buffer and windowing loop.  The `CircularBuffer` class
itself is provided by the external `sherpa-onnx-node` package, so it is
modelled from the spec (§4.1): logical content `data`, monotone read
cursor `headPos`, capacity bound; `push` appends (failing on overflow),
`pop n` removes `n` samples from the front (failing if `n > size`),
`get offset len` is a read-only view addressed relative to `head`.
-/

/-- Modelled from the spec: the fixed-capacity circular sample buffer of
§4.1 (the class comes from the external `sherpa-onnx-node` package and has
no source in this repository).  `data` is the logical content between the
read cursor and the write position; `headPos` the monotonically increasing
read cursor. -/
structure CBuf where
  capacity : ℕ
  data : List ℚ
  headPos : ℕ
deriving DecidableEq, Repr

/-- `size()`: samples currently held. -/
def CBuf.size (b : CBuf) : ℕ := b.data.length

/-- `head()`: the current read cursor. -/
def CBuf.head (b : CBuf) : ℕ := b.headPos

/-- Modelled from the spec: `push(samples)` appends to the logical tail;
fails if it would exceed capacity (§4.1, §9 overflow condition). -/
def CBuf.push (b : CBuf) (samples : List ℚ) : Option CBuf :=
  if b.data.length + samples.length ≤ b.capacity then
    some { b with data := b.data ++ samples }
  else none

/-- Modelled from the spec: `pop(n)` removes `n` samples from the front,
advancing `head`; fails if `n > size`. -/
def CBuf.pop (b : CBuf) (n : ℕ) : Option CBuf :=
  if n ≤ b.data.length then
    some ⟨b.capacity, b.data.drop n, b.headPos + n⟩
  else none

/-- Modelled from the spec: `get(offset, len)` returns a copy of `len`
samples starting logically at `offset` without mutating state (the
windowing loop always passes the current head). -/
def CBuf.get (b : CBuf) (offset len : ℕ) : List ℚ :=
  (b.data.drop (offset - b.headPos)).take len

/-- A fresh buffer of the given capacity
(`new sherpa_onnx.CircularBuffer(bufferSizeInSeconds * sampleRate)`). -/
def CBuf.empty (capacity : ℕ) : CBuf := ⟨capacity, [], 0⟩

/-- The VAD window size: `config.vad.sileroVad.windowSize = 512`. -/
def WINDOW_SIZE : ℕ := 512

/-- A push, pop or get operation on the circular buffer. -/
inductive BufOp where
  | push (samples : List ℚ) : BufOp
  | pop (n : ℕ) : BufOp
  | get (offset len : ℕ) : BufOp
deriving Repr

/-- Apply one operation; a failing `push`/`pop` leaves the state unchanged
and reports failure. -/
def applyOp (b : CBuf) : BufOp → CBuf × Bool
  | .push samples =>
    match b.push samples with
    | some b' => (b', true)
    | none => (b, false)
  | .pop n =>
    match b.pop n with
    | some b' => (b', true)
    | none => (b, false)
  | .get _ _ => (b, true)

/-- Run a sequence of operations, accumulating the final state and the
total numbers of samples successfully pushed and popped (a failing
`push`/`pop` leaves the state unchanged and counts nothing; `get` reads
only). -/
def runOps : CBuf → List BufOp → CBuf × ℕ × ℕ
  | b, [] => (b, 0, 0)
  | b, .push samples :: rest =>
    match b.push samples with
    | some b' =>
      let r := runOps b' rest
      (r.1, r.2.1 + samples.length, r.2.2)
    | none => runOps b rest
  | b, .pop n :: rest =>
    match b.pop n with
    | some b' =>
      let r := runOps b' rest
      (r.1, r.2.1, r.2.2 + n)
    | none => runOps b rest
  | b, .get _ _ :: rest => runOps b rest

/-- The windowing loop of the ffmpeg stdout data handler (`gensrt.js`
lines 355-362): while `buffer.size() >= 512`, `get` a window at the
current head, `pop` it and feed it to `vad.acceptWaveform`.  The collected
frames stand for the `acceptWaveform` calls; the `Bool` records whether a
`pop` ever failed (the model keeps the failure branch so that its
unreachability can be proved). -/
def windowLoop (b : CBuf) (frames : List (List ℚ)) : CBuf × List (List ℚ) × Bool :=
  if h : WINDOW_SIZE ≤ b.size then
    let frame := b.get b.head WINDOW_SIZE
    match hp : b.pop WINDOW_SIZE with
    | some b' => windowLoop b' (frames ++ [frame])
    | none => (b, frames, true)
  else
    (b, frames, false)
termination_by b.size
decreasing_by
  simp only [CBuf.pop, CBuf.size] at hp h
  rw [if_pos h] at hp
  cases hp
  simp only [CBuf.size, List.length_drop]
  exact Nat.sub_lt (Nat.lt_of_lt_of_le (by norm_num [WINDOW_SIZE]) h) (by norm_num [WINDOW_SIZE])

/-- Int16 little-endian read: JavaScript `chunk.readInt16LE(2*i)` on two
bytes. -/
def readInt16LE (b0 b1 : ℕ) : ℤ :=
  let u : ℕ := b0 + 256 * b1
  if u < 32768 then (u : ℤ) else (u : ℤ) - 65536

/-- The int16-to-float conversion of the data handler (`gensrt.js` lines
349-353): `sampleCount = Math.floor(chunk.length / 2)` samples, sample `i`
being `chunk.readInt16LE(i * 2) / 32768.0`. -/
def bytesToFloat32 (chunk : List ℕ) : List ℚ :=
  (List.range (chunk.length / 2)).map
    (fun i => (readInt16LE (chunk.getD (2 * i) 0) (chunk.getD (2 * i + 1) 0) : ℚ) / 32768)

/-!
Theorems.
-/

/-- Helper: on non-negative input, the code's `formatTime` coincides with
the floor-based rendering (JavaScript `t % 1` is `t - ⌊t⌋` there, and the
truncated integer remainders agree with the Euclidean ones). -/
theorem formatTime_eq_floorSpec (t : ℚ) (h0 : 0 ≤ t) :
    formatTime t = formatTimeFloorSpec t := by
  have hfl0 : (0:ℤ) ≤ ⌊t⌋ := Int.floor_nonneg.mpr h0
  simp only [formatTime, formatTimeFloorSpec, jsMod1, jsTrunc, if_pos h0]
  rw [Int.tmod_eq_emod hfl0 (by norm_num), Int.tmod_eq_emod hfl0 (by norm_num)]
  rw [show (3600:ℚ) = ((3600:ℕ):ℚ) by norm_num, Rat.floor_intCast_div_natCast]
  rw [show (60:ℚ) = ((60:ℕ):ℚ) by norm_num, Rat.floor_intCast_div_natCast]
  norm_num

/-- Helper: evaluate `formatTimeFloorSpec` once the two floors are known. -/
theorem formatTimeFloorSpec_eval (t : ℚ) (w ms : ℤ) (hw : ⌊t⌋ = w)
    (hms : ⌊(t - (w:ℚ)) * 1000⌋ = ms) :
    formatTimeFloorSpec t =
      padStart (toString (w / 3600)) 2 '0' ++ ":" ++
      padStart (toString (w % 3600 / 60)) 2 '0' ++ ":" ++
      padStart (toString (w % 60)) 2 '0' ++ "," ++ padStart (toString ms) 3 '0' := by
  simp only [formatTimeFloorSpec, hw, hms]

/-- C1: two adjacent cues are merged exactly when the pause
`next.start - current.end` satisfies `pause ≥ 0`, `pause < 0.5` and
`current.duration + next.duration ≤ 15`; on a merge the duration becomes
`next.end - current.start` and the text `current.text ++ " " ++ next.text`;
a negative pause starts a new cue.  In particular
`[{0,2,"A"},{2.3,1,"B"}]` merges to `{0,3.3,"A B"}` and
`[{0,2,"A"},{2.6,1,"B"}]` stays unchanged. -/
theorem c1_merge_rule :
    (∀ c n : Segment,
      mergeSegments [c, n] =
        if 0 ≤ n.start - c.endTime ∧ c.duration + n.duration ≤ 15 ∧
            n.start - c.endTime < 1/2
        then [⟨c.start, n.endTime - c.start, c.text ++ " " ++ n.text⟩]
        else [c, n]) ∧
    mergeSegments [⟨0, 2, "A"⟩, ⟨23/10, 1, "B"⟩] = [⟨0, 33/10, "A B"⟩] ∧
    mergeSegments [⟨0, 2, "A"⟩, ⟨13/5, 1, "B"⟩] = [⟨0, 2, "A"⟩, ⟨13/5, 1, "B"⟩] := by
  refine ⟨fun c n => ?_, ?_, ?_⟩
  · simp only [mergeSegments, mergeLoop, mergeCond, Segment.endTime, MAX_DURATION, MAX_PAUSE]
  · simp only [mergeSegments, mergeLoop, mergeCond, Segment.endTime, MAX_DURATION, MAX_PAUSE]
    rw [if_pos (by norm_num)]
    norm_num [Segment.mk.injEq]
    decide
  · simp only [mergeSegments, mergeLoop, mergeCond, Segment.endTime, MAX_DURATION, MAX_PAUSE]
    rw [if_neg (by norm_num)]

/-- C2 counterexample: the code floors the millisecond field; at
`t = 59.9995` it renders `00:00:59,999`, while the claimed
`round((t - ⌊t⌋) * 1000)` gives `1000` and hence `00:00:59,1000`. -/
theorem c2_counterexample :
    formatTime (119999/2000 : ℚ) = "00:00:59,999" ∧
    formatTimeRoundSpec (119999/2000 : ℚ) = "00:00:59,1000" ∧
    formatTime (119999/2000 : ℚ) ≠ formatTimeRoundSpec (119999/2000 : ℚ) := by
  have h1 : formatTime (119999/2000 : ℚ) = "00:00:59,999" := by
    rw [formatTime_eq_floorSpec _ (by norm_num),
      formatTimeFloorSpec_eval _ 59 999 (by rw [Int.floor_eq_iff] <;> norm_num)
        (by rw [Int.floor_eq_iff] <;> norm_num)]
    decide
  have h2 : formatTimeRoundSpec (119999/2000 : ℚ) = "00:00:59,1000" := by
    have hw : (⌊(119999/2000 : ℚ)⌋ : ℤ) = 59 := by rw [Int.floor_eq_iff] <;> norm_num
    have hms : round (((119999/2000 : ℚ) - ((59:ℤ):ℚ)) * 1000) = (1000:ℤ) := by
      rw [round_eq, Int.floor_eq_iff] <;> norm_num
    simp only [formatTimeRoundSpec, hw, hms]
    decide
  exact ⟨h1, h2, by rw [h1, h2]; decide⟩

/-- C2 (amended): `formatTime` renders non-negative seconds as
`HH:MM:SS,mmm`, all fields zero-padded, `HH` not wrapped at 24, with whole
seconds by flooring and milliseconds as `floor((t - ⌊t⌋) * 1000)` (not
`round`); `formatTime 3661.234 = "01:01:01,234"`,
`formatTime 0 = "00:00:00,000"`, `formatTime 59.9995 = "00:00:59,999"`
(no overflow into minutes), `formatTime 90000 = "25:00:00,000"`. -/
theorem c2_formatTime_floor :
    (∀ t : ℚ, 0 ≤ t → formatTime t = formatTimeFloorSpec t) ∧
    formatTime (3661234/1000 : ℚ) = "01:01:01,234" ∧
    formatTime 0 = "00:00:00,000" ∧
    formatTime (119999/2000 : ℚ) = "00:00:59,999" ∧
    formatTime 90000 = "25:00:00,000" := by
  refine ⟨formatTime_eq_floorSpec, ?_, ?_, ?_, ?_⟩
  · rw [formatTime_eq_floorSpec _ (by norm_num),
      formatTimeFloorSpec_eval _ 3661 234 (by rw [Int.floor_eq_iff] <;> norm_num)
        (by rw [Int.floor_eq_iff] <;> norm_num)]
    decide
  · rw [formatTime_eq_floorSpec _ (by norm_num),
      formatTimeFloorSpec_eval _ 0 0 (by norm_num) (by norm_num)]
    decide
  · rw [formatTime_eq_floorSpec _ (by norm_num),
      formatTimeFloorSpec_eval _ 59 999 (by rw [Int.floor_eq_iff] <;> norm_num)
        (by rw [Int.floor_eq_iff] <;> norm_num)]
    decide
  · rw [formatTime_eq_floorSpec _ (by norm_num),
      formatTimeFloorSpec_eval _ 90000 0 (by norm_num)
        (by rw [Int.floor_eq_iff] <;> norm_num)]
    decide

/-- C2 witness: the general part of `c2_formatTime_floor` applied at `t = 1`. -/
theorem c2_witness : formatTime 1 = formatTimeFloorSpec 1 :=
  c2_formatTime_floor.1 1 (by norm_num)

/-- C3 counterexample: in the `transcriber.js` variant, zero segments make
`saveSrt` return early — no file is written at all, rather than a
zero-byte file. -/
theorem c3_counterexample :
    Transcriber.saveSrt [] = none ∧ Transcriber.saveSrt [] ≠ some "" := by
  constructor
  · rfl
  · intro h
    simp [Transcriber.saveSrt] at h

/-- C3 (amended): on zero cues the serialiser produces the empty string;
the `gensrt.js` `saveSrt` still writes the (zero-byte) file and succeeds,
but the `transcriber.js` variant returns without writing any file (also
without error). -/
theorem c3_empty_serializer :
    srtContent [] = "" ∧ Gensrt.saveSrt [] = some "" ∧ Transcriber.saveSrt [] = none := by
  refine ⟨rfl, ?_, rfl⟩
  simp [Gensrt.saveSrt, sortByStart, mergeSegments, srtContent]

/-- C5: a subtitle file is written only when the decode process exits 0;
on a nonzero exit or a spawn failure nothing is written and the job
rejects; and the per-file loop of `main` processes every other file
unaffected (an error aborts only its own job). -/
theorem c5_srt_only_on_clean_exit :
    (∀ o : FfmpegOutcome, (processFile o).wrote ≠ none →
        ∃ segments recogOk, o = .run 0 segments recogOk) ∧
    (∀ (code : ℤ) (segments : List Segment) (recogOk : Bool), code ≠ 0 →
        processFile (.run code segments recogOk) = ⟨none, false⟩) ∧
    processFile .spawnFail = ⟨none, false⟩ ∧
    (∀ (pre : List FfmpegOutcome) (o : FfmpegOutcome) (post : List FfmpegOutcome),
        mainLoop (pre ++ o :: post) = mainLoop pre ++ processFile o :: mainLoop post) := by
  refine ⟨?_, ?_, rfl, ?_⟩
  · intro o h
    match o with
    | .spawnFail => exact absurd rfl h
    | .run code segments recogOk =>
      by_cases hc : code = 0
      · subst hc
        exact ⟨segments, recogOk, rfl⟩
      · rw [processFile, if_pos hc] at h
        exact absurd rfl h
  · intro code segments recogOk hc
    rw [processFile, if_pos hc]
  · intro pre o post
    induction pre with
    | nil => rfl
    | cons p rest ih => simp only [List.cons_append, mainLoop, List.append_eq, ih]

/-- C5 witness: a nonzero exit writes nothing and rejects; a clean exit's
result is the one whose write is non-`none`. -/
theorem c5_witness :
    processFile (.run 1 [] true) = ⟨none, false⟩ ∧
    (∃ segments recogOk, FfmpegOutcome.run 0 [] true = .run 0 segments recogOk) :=
  ⟨c5_srt_only_on_clean_exit.2.1 1 [] true (by norm_num),
   c5_srt_only_on_clean_exit.1 (.run 0 [] true)
     (by simp [processFile, Gensrt.saveSrt])⟩

/-- Helper: the first cue emitted by the merge loop keeps the current
cue's start, and (when all merged-in durations are non-negative) its
duration can only grow. -/
theorem mergeLoop_head (rest : List Segment) :
    ∀ current : Segment, (∀ s ∈ rest, 0 ≤ s.duration) →
      ∃ hd tl, mergeLoop current rest = hd :: tl ∧ hd.start = current.start ∧
        current.duration ≤ hd.duration := by
  induction rest with
  | nil => exact fun current _ => ⟨current, [], rfl, rfl, le_rfl⟩
  | cons next rest' ih =>
    intro current h
    by_cases hc : mergeCond current next
    · have hnext : 0 ≤ next.duration := h next (List.mem_cons_self next rest')
      obtain ⟨hd, tl, heq, hstart, hdur⟩ :=
        ih ⟨current.start, next.endTime - current.start,
          current.text ++ " " ++ next.text⟩
          (fun s hs => h s (List.mem_cons_of_mem next hs))
      refine ⟨hd, tl, ?_, hstart, ?_⟩
      · rw [mergeLoop, if_pos hc]
        exact heq
      · refine le_trans ?_ hdur
        have h1 := hc.1
        simp only [Segment.endTime] at h1 ⊢
        linarith
    · refine ⟨current, mergeLoop next rest', ?_, rfl, le_rfl⟩
      rw [mergeLoop, if_neg hc]

/-- Helper: with non-negative durations, no two consecutive cues of the
merge loop's output satisfy the merge test (a flush is caused by a
negative pause, a pause of at least 0.5 s, or a duration sum above 15 s,
and each of the three persists once the trailing cue has only grown). -/
theorem mergeLoop_chain (rest : List Segment) :
    ∀ current : Segment, 0 ≤ current.duration → (∀ s ∈ rest, 0 ≤ s.duration) →
      List.Chain' (fun a b => ¬ mergeCond a b) (mergeLoop current rest) := by
  induction rest with
  | nil => intro current _ _; simp [mergeLoop]
  | cons next rest' ih =>
    intro current hcur h
    have hnext : 0 ≤ next.duration := h next (List.mem_cons_self next rest')
    have hrest : ∀ s ∈ rest', 0 ≤ s.duration :=
      fun s hs => h s (List.mem_cons_of_mem next hs)
    by_cases hc : mergeCond current next
    · rw [mergeLoop, if_pos hc]
      refine ih _ ?_ hrest
      have h1 := hc.1
      simp only [Segment.endTime] at h1 ⊢
      linarith
    · rw [mergeLoop, if_neg hc]
      obtain ⟨hd, tl, heq, hstart, hdur⟩ := mergeLoop_head rest' next hrest
      rw [heq, List.chain'_cons]
      refine ⟨?_, heq ▸ ih next hnext hrest⟩
      intro hcontra
      apply hc
      refine ⟨?_, ?_, ?_⟩
      · have := hcontra.1; rw [hstart] at this; exact this
      · have := hcontra.2.1; simp only [mergeCond] at *; linarith
      · have := hcontra.2.2; rw [hstart] at this; exact this

/-- Helper: a list in which no two consecutive cues are mergeable is a
fixed point of `mergeSegments`. -/
theorem mergeSegments_of_chain :
    ∀ l : List Segment, List.Chain' (fun a b => ¬ mergeCond a b) l →
      mergeSegments l = l := by
  have loop : ∀ (rest : List Segment) (current : Segment),
      List.Chain' (fun a b => ¬ mergeCond a b) (current :: rest) →
      mergeLoop current rest = current :: rest := by
    intro rest
    induction rest with
    | nil => intro current _; rfl
    | cons next rest' ih =>
      intro current hch
      rw [List.chain'_cons] at hch
      rw [mergeLoop, if_neg hch.1, ih next hch.2]
  intro l hl
  match l with
  | [] => rfl
  | c :: rest => exact loop rest c hl

/-- C6 counterexample: a cue list sorted by `start` on which
`mergeSegments` is not idempotent.  The middle merge cap fails
(`10 + 6 > 15`) so `A` is flushed, but a later negative-duration cue
shrinks the trailing merged cue below the cap, so a second pass merges
`A` after all. -/
theorem c6_counterexample :
    List.Chain' (fun a b : Segment => a.start ≤ b.start)
      [⟨0, 10, "A"⟩, ⟨101/10, 6, "B"⟩, ⟨81/5, -12, "C"⟩] ∧
    mergeSegments (mergeSegments [⟨0, 10, "A"⟩, ⟨101/10, 6, "B"⟩, ⟨81/5, -12, "C"⟩]) ≠
      mergeSegments [⟨0, 10, "A"⟩, ⟨101/10, 6, "B"⟩, ⟨81/5, -12, "C"⟩] := by
  constructor
  · simp only [List.chain'_cons, List.chain'_singleton, and_true]
    norm_num
  · have h1 : mergeSegments [⟨0, 10, "A"⟩, ⟨101/10, 6, "B"⟩, ⟨81/5, -12, "C"⟩]
        = [⟨0, 10, "A"⟩, ⟨101/10, -59/10, "B C"⟩] := by
      simp only [mergeSegments, mergeLoop, mergeCond, Segment.endTime,
        MAX_DURATION, MAX_PAUSE]
      rw [if_neg (by norm_num), if_pos (by norm_num)]
      norm_num [Segment.mk.injEq]
      decide
    have h2 : mergeSegments [⟨0, 10, "A"⟩, ⟨101/10, -59/10, "B C"⟩]
        = [⟨0, 21/5, "A B C"⟩] := by
      simp only [mergeSegments, mergeLoop, mergeCond, Segment.endTime,
        MAX_DURATION, MAX_PAUSE]
      rw [if_pos (by norm_num)]
      norm_num [Segment.mk.injEq]
      decide
    rw [h1, h2]
    simp

/-- C6 (amended): on cue lists sorted by `start` in which every duration
is non-negative (which holds for all cues the pipeline produces, their
durations being sample counts over the sample rate), `mergeSegments` is
idempotent. -/
theorem c6_idempotent (l : List Segment)
    (_hsorted : List.Chain' (fun a b : Segment => a.start ≤ b.start) l)
    (hdur : ∀ s ∈ l, 0 ≤ s.duration) :
    mergeSegments (mergeSegments l) = mergeSegments l := by
  match l with
  | [] => rfl
  | c :: rest =>
    have hchain := mergeLoop_chain rest ⟨c.start, c.duration, c.text⟩
      (hdur c (List.mem_cons_self c rest))
      (fun s hs => hdur s (List.mem_cons_of_mem c hs))
    exact mergeSegments_of_chain _ hchain

/-- C6 witness: idempotence applied to a concrete sorted list with
non-negative durations. -/
theorem c6_witness :
    mergeSegments (mergeSegments [⟨0, 1, "A"⟩, ⟨2, 1, "B"⟩]) =
      mergeSegments [⟨0, 1, "A"⟩, ⟨2, 1, "B"⟩] :=
  c6_idempotent [⟨0, 1, "A"⟩, ⟨2, 1, "B"⟩]
    (by simp only [List.chain'_cons, List.chain'_singleton, and_true]; norm_num)
    (by decide)

/-- Default entry for out-of-range lookups (its status is neither
`"pending"` nor `"processing"` nor `"completed"`). -/
def noEntry : JobEntry := ⟨"", ""⟩

/-- The last `filesList` state of a trace. -/
def finalState (trace : List (List JobEntry)) : List JobEntry := trace.getLastD []

/-- Helper: `updStatus` preserves length. -/
theorem updStatus_length (l : List JobEntry) :
    ∀ (i : ℕ) (s : String), (updStatus l i s).length = l.length := by
  induction l with
  | nil => intro i s; rfl
  | cons f rest ih =>
    intro i s
    cases i with
    | zero => rfl
    | succ i' => simp [updStatus, ih]

/-- Helper: `updStatus` leaves other positions unchanged. -/
theorem updStatus_getD_ne (l : List JobEntry) :
    ∀ (i j : ℕ) (s : String), j ≠ i →
      (updStatus l i s).getD j noEntry = l.getD j noEntry := by
  induction l with
  | nil => intro i j s _; rfl
  | cons f rest ih =>
    intro i j s h
    cases i with
    | zero =>
      cases j with
      | zero => exact absurd rfl h
      | succ j' => simp [updStatus, List.getD_cons_succ]
    | succ i' =>
      cases j with
      | zero => simp [updStatus, List.getD_cons_zero]
      | succ j' =>
        simp only [updStatus, List.getD_cons_succ]
        exact ih i' j' s (fun hh => h (by rw [hh]))

/-- Helper: `updStatus` writes the requested status at an in-range
position. -/
theorem updStatus_getD_eq (l : List JobEntry) :
    ∀ (i : ℕ) (s : String), i < l.length →
      ((updStatus l i s).getD i noEntry).status = s := by
  induction l with
  | nil => intro i s h; simp at h
  | cons f rest ih =>
    intro i s h
    cases i with
    | zero => rfl
    | succ i' =>
      simp only [updStatus, List.getD_cons_succ]
      exact ih i' s (by simpa using h)

/-- Helper: `updStatus` out of range is the identity. -/
theorem updStatus_oob (l : List JobEntry) :
    ∀ (i : ℕ) (s : String), l.length ≤ i → updStatus l i s = l := by
  induction l with
  | nil => intro i s _; rfl
  | cons f rest ih =>
    intro i s h
    cases i with
    | zero => simp at h
    | succ i' => simp only [updStatus]; rw [ih i' s (by simpa using h)]

/-- Helper: statuses after `markPendingError`: `'pending'` becomes
`'error'`, everything else is unchanged (also at out-of-range positions,
whose default status is `""`). -/
theorem markPendingError_getD_status (l : List JobEntry) :
    ∀ j : ℕ, ((markPendingError l).getD j noEntry).status =
      if (l.getD j noEntry).status = "pending" then "error"
      else (l.getD j noEntry).status := by
  induction l with
  | nil => intro j; rfl
  | cons f rest ih =>
    intro j
    cases j with
    | zero =>
      simp only [markPendingError, List.map_cons, List.getD_cons_zero]
      by_cases hf : f.status = "pending" <;> simp [hf]
    | succ j' =>
      simpa only [markPendingError, List.map_cons, List.getD_cons_succ] using ih j'

/-- Helper: the initial `filesList` is all-pending. -/
theorem initEntries_getD (names : List String) :
    ∀ j : ℕ, (((names.map (fun n => (⟨n, "pending"⟩ : JobEntry)))).getD j noEntry).status =
      if j < names.length then "pending" else "" := by
  induction names with
  | nil => intro j; simp [noEntry]
  | cons n rest ih =>
    intro j
    cases j with
    | zero => simp
    | succ j' =>
      simp only [List.map_cons, List.getD_cons_succ, List.length_cons]
      rw [ih j']
      by_cases hj : j' < rest.length
      · rw [if_pos hj, if_pos (by omega)]
      · rw [if_neg hj, if_neg (by omega)]

/-- Helper: the loop trace is never empty. -/
theorem startLoopAux_ne_nil (exitOk cancelAt : ℕ → Bool) :
    ∀ (rem i : ℕ) (st : List JobEntry),
      startLoopAux exitOk cancelAt i rem st ≠ [] := by
  intro rem i st
  cases rem with
  | zero => simp [startLoopAux]
  | succ r =>
    rw [startLoopAux]
    split <;> simp

/-- Helper: dropping the first two states of a longer trace does not
change its final state. -/
theorem finalState_cons_cons (s1 s2 : List JobEntry) (T : List (List JobEntry))
    (h : T ≠ []) : finalState (s1 :: s2 :: T) = finalState T := by
  cases T with
  | nil => exact absurd rfl h
  | cons a t => simp [finalState, List.getLastD_cons]

/-- Helper (master induction for the `/api/start` loop under cancel-all):
if `cancelAllTranscription` is first observed at loop index `i0`, then no
state of the trace ever shows a job of index `≥ i0` as `'processing'`;
when the cancel point lies inside the remaining range the final state
marks all such jobs `'error'`; and `'completed'` only ever appears for a
job that ran before the cancel point with exit code 0. -/
theorem startLoopAux_cancel (exitOk cancelAt : ℕ → Bool) (i0 : ℕ)
    (hci : cancelAt i0 = true) (hmin : ∀ k, k < i0 → cancelAt k = false) :
    ∀ (rem i : ℕ) (st : List JobEntry),
      i ≤ i0 →
      (∀ j, i ≤ j → j < st.length → (st.getD j noEntry).status = "pending") →
      (∀ j, (st.getD j noEntry).status ≠ "processing") →
      (∀ j, (st.getD j noEntry).status = "completed" → j < i ∧ exitOk j = true) →
      (∀ st_ ∈ startLoopAux exitOk cancelAt i rem st, ∀ j, i0 ≤ j →
        (st_.getD j noEntry).status ≠ "processing") ∧
      (i0 < i + rem →
        ∀ j, i0 ≤ j → j < st.length →
          ((finalState (startLoopAux exitOk cancelAt i rem st)).getD j noEntry).status
            = "error") ∧
      (∀ j, ((finalState (startLoopAux exitOk cancelAt i rem st)).getD j noEntry).status
          = "completed" → j < i0 ∧ exitOk j = true) := by
  intro rem
  induction rem with
  | zero =>
    intro i st hile hpend hnoproc hcomp
    refine ⟨?_, ?_, ?_⟩
    · intro st_ hst_ j _
      simp only [startLoopAux, List.mem_singleton] at hst_
      subst hst_
      exact hnoproc j
    · intro hlt
      exact absurd hlt (by omega)
    · intro j hcj
      simp only [startLoopAux, finalState, List.getLastD_cons, List.getLastD_nil] at hcj
      exact ⟨lt_of_lt_of_le (hcomp j hcj).1 hile, (hcomp j hcj).2⟩
  | succ rem ih =>
    intro i st hile hpend hnoproc hcomp
    by_cases hc : cancelAt i = true
    · have hii : i = i0 := by
        have hni : ¬ i < i0 := by
          intro hlt
          rw [hmin i hlt] at hc
          exact Bool.noConfusion hc
        omega
      rw [startLoopAux, if_pos hc]
      have hfin : finalState [st, markPendingError st] = markPendingError st := by
        simp [finalState, List.getLastD_cons]
      refine ⟨?_, ?_, ?_⟩
      · intro st_ hst_ j _
        simp only [List.mem_cons, List.not_mem_nil, or_false] at hst_
        rcases hst_ with h1 | h1
        · subst h1; exact hnoproc j
        · subst h1
          rw [markPendingError_getD_status]
          split
          · decide
          · exact hnoproc j
      · intro _ j hj hjlen
        rw [hfin, markPendingError_getD_status,
          if_pos (hpend j (by omega) hjlen)]
      · intro j hcj
        rw [hfin, markPendingError_getD_status] at hcj
        split at hcj
        · exact absurd hcj (by decide)
        · exact ⟨lt_of_lt_of_le (hcomp j hcj).1 (le_of_eq hii), (hcomp j hcj).2⟩
    · have hlt : i < i0 := by
        have hne : i ≠ i0 := fun h => hc (h ▸ hci)
        omega
      rw [startLoopAux, if_neg hc]
      have hlen1 : (updStatus st i "processing").length = st.length := updStatus_length st i _
      have hlen2 :
          (updStatus (updStatus st i "processing") i
            (if exitOk i then "completed" else "error")).length = st.length := by
        rw [updStatus_length, hlen1]
      have hpend2 : ∀ j, i + 1 ≤ j →
          j < (updStatus (updStatus st i "processing") i
            (if exitOk i then "completed" else "error")).length →
          (((updStatus (updStatus st i "processing") i
            (if exitOk i then "completed" else "error")).getD j noEntry)).status
            = "pending" := by
        intro j hj hjl
        rw [updStatus_getD_ne _ _ _ _ (by omega), updStatus_getD_ne _ _ _ _ (by omega)]
        exact hpend j (by omega) (by rwa [hlen2] at hjl)
      have hnoproc2 : ∀ m,
          (((updStatus (updStatus st i "processing") i
            (if exitOk i then "completed" else "error")).getD m noEntry)).status
            ≠ "processing" := by
        intro m
        by_cases hmi : m = i
        · rw [hmi]
          by_cases hjl : i < (updStatus st i "processing").length
          · rw [updStatus_getD_eq _ _ _ hjl]
            cases hE : exitOk i <;> decide
          · rw [updStatus_oob _ _ _ (by omega),
              updStatus_oob _ _ _ (by rw [hlen1] at hjl; omega)]
            exact hnoproc i
        · rw [updStatus_getD_ne _ _ _ _ hmi, updStatus_getD_ne _ _ _ _ hmi]
          exact hnoproc m
      have hcomp2 : ∀ m,
          (((updStatus (updStatus st i "processing") i
            (if exitOk i then "completed" else "error")).getD m noEntry)).status
            = "completed" → m < i + 1 ∧ exitOk m = true := by
        intro m hcj
        by_cases hmi : m = i
        · rw [hmi] at hcj ⊢
          by_cases hjl : i < (updStatus st i "processing").length
          · rw [updStatus_getD_eq _ _ _ hjl] at hcj
            cases hE : exitOk i
            · rw [hE] at hcj; simp at hcj
            · exact ⟨by omega, rfl⟩
          · rw [updStatus_oob _ _ _ (by omega),
              updStatus_oob _ _ _ (by rw [hlen1] at hjl; omega)] at hcj
            exact ⟨by omega, (hcomp i hcj).2⟩
        · rw [updStatus_getD_ne _ _ _ _ hmi, updStatus_getD_ne _ _ _ _ hmi] at hcj
          exact ⟨by have := (hcomp m hcj).1; omega, (hcomp m hcj).2⟩
      obtain ⟨ihA, ihB, ihC⟩ := ih (i + 1)
        (updStatus (updStatus st i "processing") i
          (if exitOk i then "completed" else "error"))
        (by omega) hpend2 hnoproc2 hcomp2
      have hTne := startLoopAux_ne_nil exitOk cancelAt rem (i + 1)
        (updStatus (updStatus st i "processing") i
          (if exitOk i then "completed" else "error"))
      have hfin := finalState_cons_cons st (updStatus st i "processing") _ hTne
      refine ⟨?_, ?_, ?_⟩
      · intro st_ hst_ j hj
        simp only [List.mem_cons] at hst_
        rcases hst_ with h1 | h1 | h1
        · subst h1; exact hnoproc j
        · subst h1
          rw [updStatus_getD_ne _ _ _ _ (by omega)]
          exact hnoproc j
        · exact ihA st_ h1 j hj
      · intro hlt' j hj hjlen
        rw [hfin]
        exact ihB (by omega) j hj (by rw [hlen2]; exact hjlen)
      · intro j hcj
        rw [hfin] at hcj
        exact ihC j hcj

/-- C4 counterexample: cancel-all during a one-file run marks the pending
job `'error'`, not `'cancelled'` — the server's status vocabulary
(`'pending' | 'processing' | 'completed' | 'error'`) has no `'cancelled'`
state at all. -/
theorem c4_counterexample :
    finalState (startLoopTrace (fun _ => true) (fun _ => true) ["a"]) =
      [⟨"a", "error"⟩] ∧ ("error" : String) ≠ "cancelled" := by
  constructor
  · rfl
  · decide

/-- C4 (amended): when cancel-all is first observed at loop index `i0`,
every job from `i0` on goes straight from `'pending'` to `'error'` (the
code's terminal status for cancelled jobs — there is no `'cancelled'`
status) without ever being `'processing'` in any reachable state; a job
is `'completed'` in the final state only if it ran before the cancel
point and its transcriber exited 0 — so the killed in-flight job (whose
exit is nonzero after the signal) is never reported `'completed'`; and
the in-flight process is killed with SIGTERM escalating to SIGKILL after
a 2000 ms grace period. -/
theorem c4_cancel_all (exitOk cancelAt : ℕ → Bool) (names : List String) (i0 : ℕ)
    (hci : cancelAt i0 = true) (hmin : ∀ k, k < i0 → cancelAt k = false) :
    (∀ st_ ∈ startLoopTrace exitOk cancelAt names, ∀ j, i0 ≤ j →
      (st_.getD j noEntry).status ≠ "processing") ∧
    (i0 < names.length →
      ∀ j, i0 ≤ j → j < names.length →
        ((finalState (startLoopTrace exitOk cancelAt names)).getD j noEntry).status
          = "error") ∧
    (∀ j, ((finalState (startLoopTrace exitOk cancelAt names)).getD j noEntry).status
        = "completed" → j < i0 ∧ exitOk j = true) ∧
    tryKillProcessTreePlan = ⟨"SIGTERM", "SIGKILL", 2000⟩ := by
  obtain ⟨hA, hB, hC⟩ := startLoopAux_cancel exitOk cancelAt i0 hci hmin
    names.length 0 (names.map (fun n => ⟨n, "pending"⟩)) (Nat.zero_le _)
    (fun j _ hjl => by
      rw [initEntries_getD names j, if_pos (by simpa using hjl)])
    (fun j => by
      rw [initEntries_getD names j]
      split <;> decide)
    (fun j hcj => absurd hcj (by
      rw [initEntries_getD names j]
      split <;> decide))
  refine ⟨hA, ?_, hC, rfl⟩
  intro hlt j hj hjlen
  exact hB (by omega) j hj (by simpa using hjlen)

/-- C4 demo schedule: the cancel flag is observed from loop index 1 on. -/
def demoExitOk : ℕ → Bool := fun _ => true

/-- C4 demo schedule: cancel-all observed at every index from 1 on. -/
def demoCancelAt : ℕ → Bool := fun k => decide (1 ≤ k)

/-- C4 witness: with two files and cancel-all observed after the first,
the second job's final status is `'error'`. -/
theorem c4_witness :
    ((finalState (startLoopTrace demoExitOk demoCancelAt ["a", "b"])).getD 1 noEntry).status
      = "error" :=
  (c4_cancel_all demoExitOk demoCancelAt ["a", "b"] 1 rfl
    (fun k hk => by simp only [demoCancelAt, decide_eq_false_iff_not]; omega)).2.1
    (by decide) 1 le_rfl (by decide)

/-- Helper: `countProcessing` over a cons. -/
theorem countProcessing_cons (f : JobEntry) (rest : List JobEntry) :
    countProcessing (f :: rest) =
      (if f.status = "processing" then 1 else 0) + countProcessing rest := by
  simp only [countProcessing, List.filter_cons]
  by_cases hf : f.status = "processing"
  · simp [hf, Nat.add_comm]
  · simp [hf]

/-- Helper: setting one entry to `'processing'` in a list with no
processing entry yields at most one. -/
theorem countProcessing_upd_processing (l : List JobEntry) :
    ∀ i : ℕ, countProcessing l = 0 →
      countProcessing (updStatus l i "processing") ≤ 1 := by
  induction l with
  | nil => intro i _; exact Nat.zero_le 1
  | cons f rest ih =>
    intro i h0
    rw [countProcessing_cons] at h0
    cases i with
    | zero =>
      rw [updStatus, countProcessing_cons]
      have h1 : ({ f with status := "processing" } : JobEntry).status = "processing" := rfl
      rw [h1, if_pos rfl]
      omega
    | succ i' =>
      rw [updStatus, countProcessing_cons]
      have := ih i' (by omega)
      omega

/-- Helper: overwriting that same entry with a non-`'processing'` status
restores a processing count of zero. -/
theorem countProcessing_upd_upd (l : List JobEntry) :
    ∀ (i : ℕ) (s : String), countProcessing l = 0 → s ≠ "processing" →
      countProcessing (updStatus (updStatus l i "processing") i s) = 0 := by
  induction l with
  | nil => intro i s _ _; rfl
  | cons f rest ih =>
    intro i s h0 hs
    rw [countProcessing_cons] at h0
    cases i with
    | zero =>
      rw [updStatus, updStatus, countProcessing_cons]
      simp only [if_neg hs]
      omega
    | succ i' =>
      rw [updStatus, updStatus, countProcessing_cons]
      have := ih i' s (by omega) hs
      omega

/-- Helper: `markPendingError` does not change the processing count. -/
theorem countProcessing_markPendingError (l : List JobEntry) :
    countProcessing (markPendingError l) = countProcessing l := by
  induction l with
  | nil => rfl
  | cons f rest ih =>
    simp only [markPendingError, List.map_cons]
    simp only [markPendingError] at ih
    by_cases hf : f.status = "pending"
    · rw [if_pos hf, countProcessing_cons, countProcessing_cons, ih]
      have h1 : ({ f with status := "error" } : JobEntry).status = "error" := rfl
      rw [h1]
      rw [if_neg (by decide), if_neg (show ¬ f.status = "processing" by rw [hf]; decide)]
    · rw [if_neg hf, countProcessing_cons, countProcessing_cons, ih]

/-- Helper: the all-pending initial list has no processing entry. -/
theorem countProcessing_init (names : List String) :
    countProcessing (names.map (fun n => (⟨n, "pending"⟩ : JobEntry))) = 0 := by
  induction names with
  | nil => rfl
  | cons n rest ih =>
    simp only [List.map_cons]
    rw [countProcessing_cons, ih]
    rfl

/-- Helper (master induction for C7): starting from a state with no
processing entry, every state of the `/api/start` loop trace has at most
one processing entry. -/
theorem startLoopAux_atMostOne (exitOk cancelAt : ℕ → Bool) :
    ∀ (rem i : ℕ) (st : List JobEntry), countProcessing st = 0 →
      ∀ st_ ∈ startLoopAux exitOk cancelAt i rem st, countProcessing st_ ≤ 1 := by
  intro rem
  induction rem with
  | zero =>
    intro i st h0 st_ hst_
    simp only [startLoopAux, List.mem_singleton] at hst_
    subst hst_
    omega
  | succ rem ih =>
    intro i st h0 st_ hst_
    rw [startLoopAux] at hst_
    by_cases hc : cancelAt i = true
    · rw [if_pos hc] at hst_
      simp only [List.mem_cons, List.not_mem_nil, or_false] at hst_
      rcases hst_ with h1 | h1
      · subst h1; omega
      · subst h1
        rw [countProcessing_markPendingError]
        omega
    · rw [if_neg hc] at hst_
      simp only [List.mem_cons] at hst_
      rcases hst_ with h1 | h1 | h1
      · subst h1; omega
      · subst h1
        exact countProcessing_upd_processing st i h0
      · refine ih (i + 1) _ ?_ st_ h1
        apply countProcessing_upd_upd st i _ h0
        cases exitOk i <;> decide

/-- C7 (amended): within one `/api/start` batch, at most one transcription
job is `'processing'` in every reachable `filesList` state — the loop
awaits each transcriber's `close` before spawning the next. -/
theorem c7_one_at_a_time (exitOk cancelAt : ℕ → Bool) (names : List String) :
    ∀ st_ ∈ startLoopTrace exitOk cancelAt names, countProcessing st_ ≤ 1 :=
  startLoopAux_atMostOne exitOk cancelAt names.length 0
    (names.map (fun n => ⟨n, "pending"⟩)) (countProcessing_init names)

/-- C7 witness: at-most-one applied to the mid-run state of a one-file
batch. -/
theorem c7_witness : countProcessing [⟨"a", "processing"⟩] ≤ 1 :=
  c7_one_at_a_time (fun _ => true) (fun _ => false) ["a"]
    [⟨"a", "processing"⟩] (by decide)

/-- C7 counterexample: the upload endpoint spawns a transcription for each
upload immediately (no queueing — the process map exists "to support
multiple processes"), so after two uploads whose deferred start callbacks
have both run, two transcription jobs are `'processing'` at once.  Each
`begin` event follows its file's `upload` event, so this event order is
reachable: the endpoint responds to both uploads before either deferred
callback fires. -/
theorem c7_counterexample :
    countProcessing (runUploadEvents
      [UploadEvent.upload "a", UploadEvent.upload "b",
       UploadEvent.begin "a", UploadEvent.begin "b"]) = 2 := by
  decide

/-- Helper (C8 master induction, fuel on the buffer size): the windowing
loop never reaches the `pop` failure branch, drains the buffer below one
window, and emits only full 512-sample frames. -/
theorem windowLoop_master :
    ∀ (n : ℕ) (b : CBuf), b.size ≤ n → ∀ frames : List (List ℚ),
      (windowLoop b frames).2.2 = false ∧
      (windowLoop b frames).1.size < WINDOW_SIZE ∧
      (∀ f ∈ (windowLoop b frames).2.1, f ∈ frames ∨ f.length = WINDOW_SIZE) := by
  intro n
  induction n with
  | zero =>
    intro b hb frames
    have hlt : ¬ WINDOW_SIZE ≤ b.size := by
      simp only [WINDOW_SIZE]
      omega
    rw [windowLoop, dif_neg hlt]
    exact ⟨rfl, by simp only [WINDOW_SIZE]; omega, fun f hf => Or.inl hf⟩
  | succ n ih =>
    intro b hb frames
    by_cases h : WINDOW_SIZE ≤ b.size
    · have hpop : b.pop WINDOW_SIZE =
          some ⟨b.capacity, b.data.drop WINDOW_SIZE, b.headPos + WINDOW_SIZE⟩ := by
        simp only [CBuf.pop]
        rw [if_pos (by simpa [CBuf.size] using h)]
      have hfl : (b.get b.head WINDOW_SIZE).length = WINDOW_SIZE := by
        simp only [CBuf.get, CBuf.head, Nat.sub_self, List.drop_zero, List.length_take]
        simp only [CBuf.size] at h
        omega
      rw [windowLoop, dif_pos h]
      split
      · rename_i b' heq
        rw [hpop] at heq
        cases heq
        have hsize : (CBuf.mk b.capacity (b.data.drop WINDOW_SIZE)
            (b.headPos + WINDOW_SIZE)).size ≤ n := by
          simp only [CBuf.size, List.length_drop]
          simp only [CBuf.size, WINDOW_SIZE] at h hb
          simp only [WINDOW_SIZE]
          omega
        obtain ⟨e1, e2, e3⟩ := ih _ hsize (frames ++ [b.get b.head WINDOW_SIZE])
        refine ⟨e1, e2, ?_⟩
        intro f hf
        rcases e3 f hf with h1 | h1
        · rcases List.mem_append.mp h1 with h2 | h2
          · exact Or.inl h2
          · right
            rw [List.mem_singleton.mp h2]
            exact hfl
        · exact Or.inr h1
      · rename_i heq
        rw [hpop] at heq
        exact absurd heq (by simp)
    · rw [windowLoop, dif_neg h]
      refine ⟨rfl, ?_, fun f hf => Or.inl hf⟩
      show b.size < WINDOW_SIZE
      simp only [WINDOW_SIZE] at h ⊢
      omega

/-- C8: in the windowing loop, every `pop` satisfies its precondition
(the failure branch is unreachable), the loop leaves strictly fewer than
512 samples in the buffer, and every window fed to the detector is a full
512-sample frame. -/
theorem c8_window_loop (b : CBuf) (frames : List (List ℚ)) :
    (windowLoop b frames).2.2 = false ∧
    (windowLoop b frames).1.size < WINDOW_SIZE ∧
    (∀ f ∈ (windowLoop b frames).2.1, f ∈ frames ∨ f.length = WINDOW_SIZE) :=
  windowLoop_master b.size b le_rfl frames

/-- Helper (C9 master induction): accounting and capacity invariants of
`runOps`, for any start state within capacity. -/
theorem runOps_master :
    ∀ (ops : List BufOp) (b : CBuf), b.size ≤ b.capacity →
      (runOps b ops).1.size + (runOps b ops).2.2 = b.size + (runOps b ops).2.1 ∧
      (runOps b ops).1.size ≤ b.capacity ∧
      (runOps b ops).1.capacity = b.capacity := by
  intro ops
  induction ops with
  | nil =>
    intro b hb
    exact ⟨rfl, hb, rfl⟩
  | cons op rest ih =>
    intro b hb
    cases op with
    | push samples =>
      rw [runOps]
      cases hp : b.push samples with
      | some b' =>
        simp only [CBuf.push] at hp
        split at hp
        · rename_i hcap
          cases hp
          have hb' : ({ b with data := b.data ++ samples } : CBuf).size ≤
              ({ b with data := b.data ++ samples } : CBuf).capacity := by
            simp only [CBuf.size, List.length_append]
            simpa [CBuf.size] using hcap
          obtain ⟨e1, e2, e3⟩ := ih _ hb'
          simp only [CBuf.size, List.length_append] at e1 e2 e3 ⊢
          refine ⟨by omega, by simpa using e2, by simpa using e3⟩
        · exact absurd hp (by simp)
      | none =>
        exact ih b hb
    | pop n =>
      rw [runOps]
      cases hp : b.pop n with
      | some b' =>
        simp only [CBuf.pop] at hp
        split at hp
        · rename_i hn
          cases hp
          have hb' : (CBuf.mk b.capacity (b.data.drop n) (b.headPos + n)).size ≤
              (CBuf.mk b.capacity (b.data.drop n) (b.headPos + n)).capacity := by
            simp only [CBuf.size, List.length_drop]
            simp only [CBuf.size] at hb
            omega
          obtain ⟨e1, e2, e3⟩ := ih _ hb'
          simp only [CBuf.size, List.length_drop] at e1 e2 e3 ⊢
          simp only [CBuf.size] at hb
          refine ⟨by omega, by simpa using e2, by simpa using e3⟩
        · exact absurd hp (by simp)
      | none =>
        exact ih b hb
    | get offset len =>
      rw [runOps]
      exact ih b hb

/-- C9: for every operation sequence on a fresh buffer, the final size
plus the total successfully popped equals the total successfully pushed
(so the size is exactly pushed-minus-popped and can never go negative),
the size never exceeds the capacity, and `get` never mutates the state. -/
theorem c9_buffer_invariant (cap : ℕ) (ops : List BufOp) :
    (runOps (CBuf.empty cap) ops).1.size + (runOps (CBuf.empty cap) ops).2.2
      = (runOps (CBuf.empty cap) ops).2.1 ∧
    (runOps (CBuf.empty cap) ops).1.size ≤ cap ∧
    (∀ (b : CBuf) (offset len : ℕ), applyOp b (.get offset len) = (b, true)) := by
  obtain ⟨e1, e2, _⟩ := runOps_master ops (CBuf.empty cap) (by simp [CBuf.empty, CBuf.size])
  refine ⟨?_, e2, fun b offset len => rfl⟩
  simpa [CBuf.empty, CBuf.size] using e1

/-- Helper: every byte looked up in a chunk of bytes `< 256` is `< 256`
(out-of-range lookups default to 0). -/
theorem chunk_getD_lt (chunk : List ℕ) (hb : ∀ x ∈ chunk, x < 256) (k : ℕ) :
    chunk.getD k 0 < 256 := by
  by_cases hk : k < chunk.length
  · rw [List.getD_eq_getElem chunk 0 hk]
    exact hb _ (List.getElem_mem hk)
  · rw [List.getD_eq_default chunk 0 (by omega)]
    norm_num

/-- Helper: the signed 16-bit range of `readInt16LE` on bytes. -/
theorem readInt16LE_bounds (b0 b1 : ℕ) (h0 : b0 < 256) (h1 : b1 < 256) :
    -32768 ≤ readInt16LE b0 b1 ∧ readInt16LE b0 b1 < 32768 := by
  simp only [readInt16LE]
  split
  · rename_i hu
    omega
  · rename_i hu
    have : b0 + 256 * b1 ≤ 65535 := by omega
    omega

/-- C10: int16-to-float conversion: exactly `⌊chunk.length / 2⌋` samples;
sample `i` is the little-endian signed 16-bit value at byte offset `2i`
divided by 32768; every sample lies in `[-1, 1)`; and appending a
trailing odd byte to an even-length chunk changes nothing (the byte is
silently discarded). -/
theorem c10_conversion (chunk : List ℕ) (hb : ∀ x ∈ chunk, x < 256) :
    (bytesToFloat32 chunk).length = chunk.length / 2 ∧
    (∀ i, i < chunk.length / 2 →
      (bytesToFloat32 chunk).getD i 0 =
        (readInt16LE (chunk.getD (2 * i) 0) (chunk.getD (2 * i + 1) 0) : ℚ) / 32768) ∧
    (∀ s ∈ bytesToFloat32 chunk, -1 ≤ s ∧ s < 1) ∧
    (chunk.length % 2 = 0 → ∀ bLast : ℕ,
      bytesToFloat32 (chunk ++ [bLast]) = bytesToFloat32 chunk) := by
  refine ⟨by simp [bytesToFloat32], ?_, ?_, ?_⟩
  · intro i hi
    rw [List.getD_eq_getElem _ 0 (by simpa [bytesToFloat32] using hi)]
    simp [bytesToFloat32]
  · intro s hs
    simp only [bytesToFloat32, List.mem_map, List.mem_range] at hs
    obtain ⟨i, _, rfl⟩ := hs
    obtain ⟨hlo, hhi⟩ := readInt16LE_bounds _ _
      (chunk_getD_lt chunk hb (2 * i)) (chunk_getD_lt chunk hb (2 * i + 1))
    constructor
    · rw [le_div_iff (by norm_num : (0:ℚ) < 32768)]
      have : (-32768 : ℚ) ≤ (readInt16LE (chunk.getD (2 * i) 0) (chunk.getD (2 * i + 1) 0) : ℚ) := by
        exact_mod_cast hlo
      linarith
    · rw [div_lt_one (by norm_num : (0:ℚ) < 32768)]
      exact_mod_cast hhi
  · intro heven bLast
    simp only [bytesToFloat32, List.length_append, List.length_singleton]
    have hl : (chunk.length + 1) / 2 = chunk.length / 2 := by omega
    rw [hl]
    apply List.map_congr_left
    intro i hi
    rw [List.mem_range] at hi
    rw [List.getD_append _ _ _ _ (by omega), List.getD_append _ _ _ _ (by omega)]

/-- C10 witness: the conversion applied to the two-byte chunk
`[0x00, 0x80]` yields exactly one sample. -/
theorem c10_witness :
    (bytesToFloat32 [0, 128]).length = ([0, 128] : List ℕ).length / 2 :=
  (c10_conversion [0, 128] (by decide)).1

/-- C8 witness: the loop on an empty buffer touches nothing, so a
pre-existing frame is returned as-is. -/
theorem c8_witness :
    [(0:ℚ)] ∈ ([[(0:ℚ)]] : List (List ℚ)) ∨ [(0:ℚ)].length = WINDOW_SIZE :=
  (c8_window_loop (CBuf.empty 4) [[0]]).2.2 [0] (by
    rw [windowLoop, dif_neg (by simp [CBuf.empty, CBuf.size, WINDOW_SIZE])]
    simp)
